import Mathlib

/-!
Verification of the apibin books store (books.go) and fingerprint/ETag
generators (books.go, echo.go), with the precondition evaluator modelled
from the specification (the evaluator itself lives in the external huma
`conditional` package).

Modelling conventions:
* `time.Time` instants are modelled as abstract `Nat` values; their JSON
  rendering (RFC3339 in Go) is modelled as a deterministic function of the
  instant.  No claim depends on the concrete rendered characters.
* `float64` values are modelled by their 64-bit IEEE-754 bit patterns
  (`Nat`); their JSON rendering (Go `strconv` shortest representation,
  a deterministic function of the bit pattern) is likewise modelled as a
  deterministic function of the pattern.
* The Go map `books` is modelled as an association list with unique keys
  (Go maps cannot hold duplicate keys); map iteration order never matters
  to the verified claims.
* Byte strings are `List Nat` with each element `< 256`.
-/

namespace Apibin

/-- Rating is a point-in-time rating for a book (books.go).
`rating` is a float64, modelled by its bit pattern. -/
structure Rating where
  date : Nat
  rating : Nat
deriving DecidableEq, Repr

/-- Book tracks metadata information about a book and its ratings
(books.go).  The `modified` field carries the Go json tag `"-"`, so it is
never serialized.  `ratingAverage` is a float64 bit pattern. -/
structure Book where
  title : String
  author : String
  published : Nat
  ratings : Int
  ratingAverage : Nat
  recentRatings : List Rating
  modified : Nat
deriving DecidableEq, Repr

/-! ## JSON serialization (Go `encoding/json` on `Book`) -/

/-- Lower-case hex digit, used by Go's `\u00XX` escapes. -/
def hexDigit (n : Nat) : Char :=
  "0123456789abcdef".data.getD n '0'

/-- Per-character JSON string escaping as performed by Go `encoding/json`
(HTML-escaping variant: `<`, `>`, `&` become `\u00XX`; control characters
other than `\n`, `\r`, `\t` become `\u00XX`). -/
def jsonEscape (c : Char) : List Char :=
  if c = '"' then ['\\', '"']
  else if c = '\\' then ['\\', '\\']
  else if c = '\n' then ['\\', 'n']
  else if c = '\r' then ['\\', 'r']
  else if c = '\t' then ['\\', 't']
  else if c.toNat < 32 ∨ c = '<' ∨ c = '>' ∨ c = '&' then
    ['\\', 'u', '0', '0', hexDigit (c.toNat / 16), hexDigit (c.toNat % 16)]
  else [c]

/-- JSON rendering of a Go string value: quoted and escaped. -/
def jsonString (s : String) : List Char :=
  '"' :: s.data.foldr (fun c acc => jsonEscape c ++ acc) ['"']

/-- JSON rendering of a `time.Time` instant.  Go renders RFC3339; we model
the instant abstractly, so the rendering is a deterministic injection of
the abstract instant into a quoted string. -/
def timeJSON (t : Nat) : List Char :=
  '"' :: (Nat.repr t).data ++ ['"']

/-- JSON rendering of a Go `int`. -/
def intJSON (n : Int) : List Char :=
  (toString n).data

/-- JSON rendering of a float64 value.  Go uses `strconv` shortest
representation, a deterministic function of the bit pattern; we model it
as a deterministic function of the (abstract) bit pattern. -/
def floatJSON (bits : Nat) : List Char :=
  (Nat.repr bits).data

/-- Go `omitempty` on a float64 field: omitted exactly when the value
compares equal to `0.0`, i.e. the bit pattern is `+0.0` or `-0.0`. -/
def floatIsZero (bits : Nat) : Prop :=
  bits = 0 ∨ bits = 2 ^ 63

instance (bits : Nat) : Decidable (floatIsZero bits) := by
  unfold floatIsZero
  infer_instance

/-- JSON rendering of one `Rating`: both fields lack `omitempty`, so both
are always serialized, in declaration order. -/
def ratingJSON (r : Rating) : List Char :=
  "\x7b\"date\":".data ++ timeJSON r.date ++
    ",\"rating\":".data ++ floatJSON r.rating ++ "\x7d".data

/-- Comma-joined concatenation, as in a JSON array body. -/
def joinComma : List (List Char) → List Char
  | [] => []
  | [x] => x
  | x :: y :: rest => x ++ ',' :: joinComma (y :: rest)

/-- JSON rendering of the `recent_ratings` array. -/
def ratingsJSON (rs : List Rating) : List Char :=
  '[' :: joinComma (rs.map ratingJSON) ++ [']']

/-- Go `json.Marshal` on a `Book` value.  Field order follows the struct
declaration.  `title` has no `omitempty`.  `author` is omitted when empty.
`published` carries `omitempty` but `time.Time` is a struct, which Go's
`omitempty` never treats as empty, so it is always serialized.  `ratings`
and `rating_average` are omitted when zero, `recent_ratings` when empty.
`modified` has tag `"-"` and is never serialized. -/
def marshalBook (b : Book) : List Char :=
  "\x7b\"title\":".data ++ jsonString b.title ++
    (if b.author = "" then [] else ",\"author\":".data ++ jsonString b.author) ++
    ",\"published\":".data ++ timeJSON b.published ++
    (if b.ratings = 0 then [] else ",\"ratings\":".data ++ intJSON b.ratings) ++
    (if floatIsZero b.ratingAverage then []
      else ",\"rating_average\":".data ++ floatJSON b.ratingAverage) ++
    (if b.recentRatings = [] then []
      else ",\"recent_ratings\":".data ++ ratingsJSON b.recentRatings) ++
    "\x7d".data

/-- UTF-8 encoding of a single character. -/
def utf8Char (c : Char) : List Nat :=
  let n := c.toNat
  if n < 128 then [n]
  else if n < 2048 then [192 + n / 64, 128 + n % 64]
  else if n < 65536 then [224 + n / 4096, 128 + n / 64 % 64, 128 + n % 64]
  else [240 + n / 262144, 128 + n / 4096 % 64, 128 + n / 64 % 64, 128 + n % 64]

/-- UTF-8 encoding of a character list (Go strings are UTF-8 bytes). -/
def utf8Bytes (s : List Char) : List Nat :=
  s.foldr (fun c acc => utf8Char c ++ acc) []

/-! ## FNV-1 128-bit hash (Go `hash/fnv`, `fnv.New128`) -/

/-- The 128-bit FNV prime, `2^88 + 2^8 + 0x3b` (Go: `prime128Lower = 0x13b`,
`prime128Shift = 24`). -/
def fnvPrime128 : Nat := 2 ^ 88 + 315

/-- The 128-bit FNV-1 offset basis (Go `fnv.New128` initial state). -/
def fnvOffset128 : Nat := 144066263297769815596495629667062367629

/-- FNV-1 128-bit: for each byte, multiply by the prime modulo `2^128`,
then xor the byte into the low bits (Go `sum128.Write`). -/
def fnv128 (bytes : List Nat) : Nat :=
  bytes.foldl (fun acc b => acc * fnvPrime128 % 2 ^ 128 ^^^ b) fnvOffset128

/-- Big-endian byte decomposition, `n` bytes (Go `hash.Hash.Sum` for
fnv-128 appends the state big-endian). -/
def toBytesBE : Nat → Nat → List Nat
  | 0, _ => []
  | n + 1, v => toBytesBE n (v / 256) ++ [v % 256]

/-! ## Base64 (Go `encoding/base64`) -/

/-- The standard base64 alphabet (`base64.StdEncoding`). -/
def stdAlphabet : List Char :=
  "ABCDEFGHIJKLMNOPQRSTUVWXYZabcdefghijklmnopqrstuvwxyz0123456789+/".data

/-- The URL-safe base64 alphabet (`base64.RawURLEncoding`). -/
def urlAlphabet : List Char :=
  "ABCDEFGHIJKLMNOPQRSTUVWXYZabcdefghijklmnopqrstuvwxyz0123456789-_".data

/-- Character for a 6-bit group. -/
def b64Char (alpha : List Char) (i : Nat) : Char :=
  alpha.getD i '?'

/-- Base64 encoding over byte lists: 3 input bytes become 4 output
characters; a 2-byte tail becomes 3 characters (plus `=` when padded); a
1-byte tail becomes 2 characters (plus `==` when padded).  `pad = true`
models `StdEncoding`, `pad = false` models `RawURLEncoding`. -/
def base64Core (alpha : List Char) (pad : Bool) : List Nat → List Char
  | b1 :: b2 :: b3 :: rest =>
    b64Char alpha (b1 / 4) ::
      b64Char alpha (b1 % 4 * 16 + b2 / 16) ::
      b64Char alpha (b2 % 16 * 4 + b3 / 64) ::
      b64Char alpha (b3 % 64) :: base64Core alpha pad rest
  | [b1, b2] =>
    [b64Char alpha (b1 / 4), b64Char alpha (b1 % 4 * 16 + b2 / 16),
      b64Char alpha (b2 % 16 * 4)] ++ (if pad then ['='] else [])
  | [b1] =>
    [b64Char alpha (b1 / 4), b64Char alpha (b1 % 4 * 16)] ++
      (if pad then ['=', '='] else [])
  | [] => []

/-- Version computes a base64 hash of the book's public fields
(books.go `Book.Version`): `json.Marshal`, `fnv.New128`, then
`base64.StdEncoding.EncodeToString` of the 16-byte sum. -/
def Book.Version (b : Book) : String :=
  ⟨base64Core stdAlphabet true (toBytesBE 16 (fnv128 (utf8Bytes (marshalBook b))))⟩

/-- The echo handler's ETag generator (echo.go `genETagBytes`): the input
bytes are hashed with `xxh3.Hash` (external library; its 64-bit result is
abstracted here as the argument), the hash is laid out as 8 big-endian
bytes, and encoded with `base64.RawURLEncoding` (URL-safe, no padding). -/
def genETagBytes (hash : Nat) : String :=
  ⟨base64Core urlAlphabet false (toBytesBE 8 (hash % 2 ^ 64))⟩

/-! ## The books store (books.go package-level state and handlers)

The Go map `books map[string]*Book` is modelled as an association list
with unique keys, the Go slice `booksOrder []string` as a `List String`.
The huma `conditional.Params.PreconditionFailed` call is external to this
repository; the handlers are parametrized by its outcome `pfail`
(`pfail fingerprint modified = true` means the precondition failed and
the handler returns without mutating) together with the
`HasConditionalParams` flag `hasCond`. -/

/-- Association-list model of the Go map `books`. -/
def BMap := List (String × Book)

/-- Keys of the map, in list order. -/
def keysOf (m : BMap) : List String :=
  m.map Prod.fst

/-- Go map read `books[id]` (`nil` becomes `none`). -/
def mapLookup : BMap → String → Option Book
  | [], _ => none
  | (k', b) :: rest, k => if k' = k then some b else mapLookup rest k

/-- Go map write `books[id] = b`: replace the binding when the key is
present (first occurrence; the lists we build have unique keys),
otherwise add a binding. -/
def mapInsert : BMap → String → Book → BMap
  | [], k, b => [(k, b)]
  | (k', b') :: rest, k, b =>
    if k' = k then (k, b) :: rest else (k', b') :: mapInsert rest k b

/-- Go map delete `delete(books, id)`: drop the binding for the key
(first occurrence; the lists we build have unique keys). -/
def mapErase : BMap → String → BMap
  | [], _ => []
  | (k', b') :: rest, k =>
    if k' = k then rest else (k', b') :: mapErase rest k

/-- Go `slices.Index` plus `slices.Delete`: remove the first occurrence
of the key from the order slice, if present. -/
def orderErase : List String → String → List String
  | [], _ => []
  | x :: rest, k => if x = k then rest else x :: orderErase rest k

/-- The package-level store state: the `books` map and the `booksOrder`
slice (books.go lines 60-61). -/
structure BooksState where
  books : BMap
  booksOrder : List String

/-- The eviction loop at the end of `putBook`:
`for len(books) > 20 { delete(books, booksOrder[0]); booksOrder = booksOrder[1:] }`.
When the order slice is empty but the map still holds more than 20
entries, the Go code would panic on `booksOrder[0]`; that state is
unreachable under the store invariant, and the model returns unchanged
there. -/
def evictLoop : BMap → List String → BMap × List String
  | m, [] => (m, [])
  | m, k :: rest =>
    if m.length > 20 then evictLoop (mapErase m k) rest else (m, k :: rest)

/-- The unconditional body of `putBook` (books.go lines 168-179): append
the id to the order when absent, stamp `modified` with the current time,
store the body, then run the eviction loop. -/
def putBookApply (s : BooksState) (id : String) (body : Book) (now : Nat) :
    BooksState :=
  let order1 := if mapLookup s.books id = none
    then s.booksOrder ++ [id] else s.booksOrder
  let books1 := mapInsert s.books id { body with modified := now }
  let p := evictLoop books1 order1
  ⟨p.1, p.2⟩

/-- `putBook` (books.go lines 153-182): when conditional parameters are
present and an entry already exists, check the precondition against the
existing entry's fingerprint and modified time; on failure return without
mutating; otherwise perform the write. -/
def putBook (pfail : String → Nat → Bool) (hasCond : Bool) (s : BooksState)
    (id : String) (body : Book) (now : Nat) : BooksState :=
  if hasCond then
    match mapLookup s.books id with
    | some existing =>
      if pfail existing.Version existing.modified then s
      else putBookApply s id body now
    | none => putBookApply s id body now
  else putBookApply s id body now

/-- The unconditional body of `deleteBook` (books.go lines 198-202):
remove the book from both the map and the slice. -/
def deleteBookApply (s : BooksState) (id : String) : BooksState :=
  ⟨mapErase s.books id, orderErase s.booksOrder id⟩

/-- `deleteBook` (books.go lines 184-205): same
conditional-check-only-if-exists guard as `putBook`, then the removal. -/
def deleteBook (pfail : String → Nat → Bool) (hasCond : Bool)
    (s : BooksState) (id : String) : BooksState :=
  if hasCond then
    match mapLookup s.books id with
    | some existing =>
      if pfail existing.Version existing.modified then s
      else deleteBookApply s id
    | none => deleteBookApply s id
  else deleteBookApply s id

/-- Result of `getBook` (books.go lines 129-151): 404 when absent, an
early return when the precondition evaluation halts the request,
otherwise the book payload. -/
inductive GetBookResult where
  | notFound
  | halted
  | ok (b : Book)
deriving DecidableEq, Repr

/-- `getBook`: look the id up, 404 when `nil`, evaluate preconditions
against the entry's fingerprint and modified time, else return it. -/
def getBook (pfail : String → Nat → Bool) (s : BooksState) (id : String) :
    GetBookResult :=
  match mapLookup s.books id with
  | none => .notFound
  | some b => if pfail b.Version b.modified then .halted else .ok b

/-- Sort ascending, modelling Go `sort.Strings`. -/
def sortStrings (l : List String) : List String :=
  l.mergeSort (fun a b => decide (a ≤ b))

/-- The baseline reload in `init` (books.go lines 70-86): unmarshal the
embedded baseline (here the argument `loaded`), stamp every entry's
`modified` with the current time, replace the map, and rebuild the order
as the sorted key list. -/
def reloadBooks (loaded : BMap) (now : Nat) : BooksState :=
  let stamped := loaded.map fun kb => (kb.1, { kb.2 with modified := now })
  ⟨stamped, sortStrings (keysOf stamped)⟩

/-- IEEE-754 bit pattern of the float64 literal `4.6`. -/
def rating46 : Nat := 0x4012666666666666

/-- One tick of the live-update simulator in `init` (books.go lines
94-108): when `books["sapiens"]` is non-nil, refresh its `modified` time
and set `RecentRatings` to a single freshly dated rating of 4.6;
otherwise leave the store untouched. -/
def updateSapiens (s : BooksState) (now : Nat) : BooksState :=
  match mapLookup s.books "sapiens" with
  | none => s
  | some b =>
    { s with
      books := mapInsert s.books "sapiens"
        { b with modified := now, recentRatings := [⟨now, rating46⟩] } }

/-! ## Precondition evaluator, modelled from the spec

The evaluator itself is the huma `conditional` package, which is not part
of this repository's sources; only its callers are.  It is therefore
modelled from the specification text (section 4.3). -/

/-- Outcome of a precondition evaluation (spec section 4.3). -/
inductive Outcome where
  | proceed
  | notModified
  | preconditionFailed
deriving DecidableEq, Repr

/-- Conditional request headers: `If-Match` and `If-None-Match` carry
lists of fingerprints (possibly the wildcard `"*"`), the `-Since` headers
carry optional timestamps. -/
structure Conditionals where
  ifMatch : List String
  ifNoneMatch : List String
  ifModifiedSince : Option Nat
  ifUnmodifiedSince : Option Nat
deriving DecidableEq, Repr

/-- Modelled from the spec: the precondition evaluator
`evaluate(requestConditionals, currentFingerprint, currentModifiedAt)` of
section 4.3, absent from this repository's sources (it lives in the
external huma `conditional` package).  Step 1: an `if-match` condition
takes precedence over everything — Proceed exactly when it lists the
current fingerprint or the wildcard, otherwise PreconditionFailed.
Step 2: otherwise, an `if-unmodified-since` whose timestamp is strictly
before `currentModifiedAt` gives PreconditionFailed.  Step 3: an
`if-none-match` listing the fingerprint or the wildcard gives
NotModified.  Step 4: otherwise an `if-modified-since` with
`currentModifiedAt` not after the given timestamp gives NotModified.
Step 5: otherwise Proceed. -/
def evaluate (c : Conditionals) (fp : String) (t : Nat) : Outcome :=
  if c.ifMatch ≠ [] then
    if fp ∈ c.ifMatch ∨ "*" ∈ c.ifMatch then .proceed
    else .preconditionFailed
  else if (match c.ifUnmodifiedSince with
    | some u => decide (u < t)
    | none => false) then .preconditionFailed
  else if c.ifNoneMatch ≠ [] ∧ (fp ∈ c.ifNoneMatch ∨ "*" ∈ c.ifNoneMatch) then
    .notModified
  else if (match c.ifModifiedSince with
    | some u => decide (t ≤ u)
    | none => false) then .notModified
  else .proceed

/-! ## Lemmas about the map model -/
@[simp] theorem keysOf_nil : keysOf [] = [] := rfl

@[simp] theorem keysOf_cons (k : String) (b : Book) (rest : BMap) :
    keysOf ((k, b) :: rest) = k :: keysOf rest := rfl

theorem length_keysOf (m : BMap) : (keysOf m).length = m.length :=
  List.length_map m Prod.fst

theorem mapLookup_eq_none (m : BMap) (k : String) :
    mapLookup m k = none ↔ k ∉ keysOf m := by
  induction m with
  | nil => simp [mapLookup]
  | cons kb rest ih =>
    obtain ⟨k', b⟩ := kb
    by_cases h : k' = k
    · simp [mapLookup, h]
    · simp [mapLookup, h, ih, Ne.symm h]

theorem mem_keysOf_of_lookup {m : BMap} {k : String} {b : Book}
    (h : mapLookup m k = some b) : k ∈ keysOf m := by
  by_contra hk
  rw [← mapLookup_eq_none m k] at hk
  simp [hk] at h

theorem keysOf_mapInsert_of_mem {m : BMap} {k : String} (b : Book)
    (h : k ∈ keysOf m) : keysOf (mapInsert m k b) = keysOf m := by
  induction m with
  | nil => simp at h
  | cons kb rest ih =>
    obtain ⟨k', b'⟩ := kb
    by_cases hk : k' = k
    · simp [mapInsert, hk]
    · have hmem : k ∈ keysOf rest := by
        simpa [Ne.symm hk] using h
      simp [mapInsert, hk, ih hmem]

theorem keysOf_mapInsert_of_not_mem {m : BMap} {k : String} (b : Book)
    (h : k ∉ keysOf m) : keysOf (mapInsert m k b) = keysOf m ++ [k] := by
  induction m with
  | nil => simp [mapInsert]
  | cons kb rest ih =>
    obtain ⟨k', b'⟩ := kb
    have hk : k' ≠ k := by
      intro hk
      exact h (by simp [hk])
    have hmem : k ∉ keysOf rest := fun hm => h (by simp [hm])
    simp [mapInsert, hk, ih hmem]

theorem keysOf_mapErase (m : BMap) (k : String) :
    keysOf (mapErase m k) = (keysOf m).erase k := by
  induction m with
  | nil => simp [mapErase]
  | cons kb rest ih =>
    obtain ⟨k', b'⟩ := kb
    by_cases hk : k' = k
    · simp [mapErase, hk, List.erase_cons_head]
    · simp [mapErase, hk, ih, List.erase_cons]

theorem orderErase_eq_erase (l : List String) (k : String) :
    orderErase l k = l.erase k := by
  induction l with
  | nil => simp [orderErase]
  | cons x rest ih =>
    by_cases hx : x = k <;> simp [orderErase, hx, List.erase_cons, ih]

theorem mapLookup_mapInsert_self (m : BMap) (k : String) (b : Book) :
    mapLookup (mapInsert m k b) k = some b := by
  induction m with
  | nil => simp [mapInsert, mapLookup]
  | cons kb rest ih =>
    obtain ⟨k', b'⟩ := kb
    by_cases hk : k' = k <;> simp [mapInsert, mapLookup, hk, ih]

theorem mapLookup_mapInsert_ne (m : BMap) {k' k : String} (b : Book)
    (h : k' ≠ k) : mapLookup (mapInsert m k' b) k = mapLookup m k := by
  induction m with
  | nil => simp [mapInsert, mapLookup, h]
  | cons kb rest ih =>
    obtain ⟨k'', b''⟩ := kb
    by_cases hk : k'' = k'
    · subst hk
      simp [mapInsert, mapLookup, h]
    · by_cases hk2 : k'' = k <;> simp [mapInsert, mapLookup, hk, hk2, ih, Ne.symm h]

theorem mapLookup_mapErase_ne (m : BMap) {k' k : String}
    (h : k' ≠ k) : mapLookup (mapErase m k') k = mapLookup m k := by
  induction m with
  | nil => simp [mapErase, mapLookup]
  | cons kb rest ih =>
    obtain ⟨k'', b''⟩ := kb
    by_cases hk : k'' = k'
    · subst hk
      simp [mapErase, mapLookup, h]
    · by_cases hk2 : k'' = k <;> simp [mapErase, mapLookup, hk, hk2, ih, Ne.symm h]

/-! ## The store invariant and its preservation -/

/-- The invariant of the ordered bounded store: `booksOrder` contains
exactly the keys of `books` (as a permutation, hence no duplicates on
either side and the same cardinality). -/
def booksInv (s : BooksState) : Prop :=
  List.Perm (keysOf s.books) s.booksOrder ∧ s.booksOrder.Nodup

theorem evictLoop_inv : ∀ (order : List String) (m : BMap),
    List.Perm (keysOf m) order → order.Nodup →
    List.Perm (keysOf (evictLoop m order).1) (evictLoop m order).2 ∧
      (evictLoop m order).2.Nodup
  | [], m, hp, hn => by
    rw [evictLoop]
    exact ⟨hp, hn⟩
  | k :: rest, m, hp, hn => by
    rw [evictLoop]
    split
    · refine evictLoop_inv rest (mapErase m k) ?_ hn.of_cons
      rw [keysOf_mapErase]
      simpa [List.erase_cons_head] using hp.erase k
    · exact ⟨hp, hn⟩

theorem evictLoop_length_le : ∀ (order : List String) (m : BMap),
    List.Perm (keysOf m) order → (evictLoop m order).1.length ≤ 20
  | [], m, hp => by
    have h0 : m.length = 0 := by
      have hlen := hp.length_eq
      rw [length_keysOf] at hlen
      simpa using hlen
    rw [evictLoop]
    simp [h0]
  | k :: rest, m, hp => by
    rw [evictLoop]
    split
    · refine evictLoop_length_le rest (mapErase m k) ?_
      rw [keysOf_mapErase]
      simpa [List.erase_cons_head] using hp.erase k
    · show m.length ≤ 20
      omega

theorem evictLoop_of_le (m : BMap) (order : List String)
    (h : m.length ≤ 20) : evictLoop m order = (m, order) := by
  cases order with
  | nil => rw [evictLoop]
  | cons k rest =>
    rw [evictLoop]
    simp [Nat.not_lt.2 h]

theorem putBookApply_inv (s : BooksState) (id : String) (body : Book)
    (now : Nat) (h : booksInv s) : booksInv (putBookApply s id body now) := by
  obtain ⟨hp, hn⟩ := h
  by_cases hl : mapLookup s.books id = none
  · have hid : id ∉ keysOf s.books := (mapLookup_eq_none _ _).1 hl
    have hido : id ∉ s.booksOrder := fun hmem => hid (hp.mem_iff.2 hmem)
    have hres := evictLoop_inv (s.booksOrder ++ [id])
      (mapInsert s.books id { body with modified := now })
      (by rw [keysOf_mapInsert_of_not_mem _ hid]; exact hp.append_right [id])
      (by simp [List.nodup_append, hn, hido])
    simpa [putBookApply, hl, booksInv] using hres
  · have hid : id ∈ keysOf s.books := by
      by_contra hk
      exact hl ((mapLookup_eq_none _ _).2 hk)
    have hres := evictLoop_inv s.booksOrder
      (mapInsert s.books id { body with modified := now })
      (by rw [keysOf_mapInsert_of_mem _ hid]; exact hp) hn
    simpa [putBookApply, hl, booksInv] using hres

theorem putBook_inv (pfail : String → Nat → Bool) (hasCond : Bool)
    (s : BooksState) (id : String) (body : Book) (now : Nat)
    (h : booksInv s) : booksInv (putBook pfail hasCond s id body now) := by
  have happ := putBookApply_inv s id body now h
  unfold putBook
  cases hasCond with
  | false => simpa using happ
  | true =>
    simp only [if_true]
    cases hl : mapLookup s.books id with
    | none => exact happ
    | some existing =>
      by_cases hpf : pfail existing.Version existing.modified = true
      · simpa [hpf] using h
      · simpa [hpf] using happ

theorem deleteBookApply_inv (s : BooksState) (id : String)
    (h : booksInv s) : booksInv (deleteBookApply s id) := by
  obtain ⟨hp, hn⟩ := h
  constructor
  · show List.Perm (keysOf (mapErase s.books id)) (orderErase s.booksOrder id)
    rw [keysOf_mapErase, orderErase_eq_erase]
    exact hp.erase id
  · show (orderErase s.booksOrder id).Nodup
    rw [orderErase_eq_erase]
    exact hn.erase id

theorem deleteBook_inv (pfail : String → Nat → Bool) (hasCond : Bool)
    (s : BooksState) (id : String) (h : booksInv s) :
    booksInv (deleteBook pfail hasCond s id) := by
  have happ := deleteBookApply_inv s id h
  unfold deleteBook
  cases hasCond with
  | false => simpa using happ
  | true =>
    simp only [if_true]
    cases hl : mapLookup s.books id with
    | none => exact happ
    | some existing =>
      by_cases hpf : pfail existing.Version existing.modified = true
      · simpa [hpf] using h
      · simpa [hpf] using happ

theorem keysOf_stamp (l : BMap) (now : Nat) :
    keysOf (l.map fun kb => (kb.1, { kb.2 with modified := now })) =
      keysOf l := by
  induction l with
  | nil => rfl
  | cons kb rest ih =>
    obtain ⟨k, b⟩ := kb
    simp only [List.map_cons, keysOf_cons, ih]

theorem reloadBooks_inv (loaded : BMap) (now : Nat)
    (h : (keysOf loaded).Nodup) : booksInv (reloadBooks loaded now) := by
  constructor
  · show List.Perm (keysOf _) (sortStrings _)
    exact (List.mergeSort_perm _ _).symm
  · show (sortStrings _).Nodup
    exact (List.mergeSort_perm _ _).symm.nodup (by rwa [keysOf_stamp])

theorem updateSapiens_inv (s : BooksState) (now : Nat)
    (h : booksInv s) : booksInv (updateSapiens s now) := by
  obtain ⟨hp, hn⟩ := h
  unfold updateSapiens
  cases hl : mapLookup s.books "sapiens" with
  | none => exact ⟨hp, hn⟩
  | some b =>
    refine ⟨?_, hn⟩
    show List.Perm (keysOf (mapInsert s.books "sapiens" _)) s.booksOrder
    rw [keysOf_mapInsert_of_mem _ (mem_keysOf_of_lookup hl)]
    exact hp

/-! ## Length and characterization lemmas for put and delete -/

theorem length_mapInsert_of_mem {m : BMap} {k : String} (b : Book)
    (h : k ∈ keysOf m) : (mapInsert m k b).length = m.length := by
  have hc := congrArg List.length (keysOf_mapInsert_of_mem b h)
  rwa [length_keysOf, length_keysOf] at hc

theorem length_mapInsert_of_not_mem {m : BMap} {k : String} (b : Book)
    (h : k ∉ keysOf m) : (mapInsert m k b).length = m.length + 1 := by
  have hc := congrArg List.length (keysOf_mapInsert_of_not_mem b h)
  rw [length_keysOf, List.length_append, length_keysOf] at hc
  simpa using hc

theorem length_mapErase_of_mem {m : BMap} {k : String}
    (h : k ∈ keysOf m) : (mapErase m k).length = m.length - 1 := by
  have hc := congrArg List.length (keysOf_mapErase m k)
  rwa [length_keysOf, List.length_erase_of_mem h, length_keysOf] at hc

theorem putBookApply_of_absent (s : BooksState) (id : String) (body : Book)
    (now : Nat) (hl : mapLookup s.books id = none) :
    putBookApply s id body now =
      ⟨(evictLoop (mapInsert s.books id { body with modified := now })
          (s.booksOrder ++ [id])).1,
        (evictLoop (mapInsert s.books id { body with modified := now })
          (s.booksOrder ++ [id])).2⟩ := by
  simp [putBookApply, hl]

theorem putBookApply_of_present (s : BooksState) (id : String) (body : Book)
    (now : Nat) (hl : mapLookup s.books id ≠ none) :
    putBookApply s id body now =
      ⟨(evictLoop (mapInsert s.books id { body with modified := now })
          s.booksOrder).1,
        (evictLoop (mapInsert s.books id { body with modified := now })
          s.booksOrder).2⟩ := by
  simp [putBookApply, hl]

/-- When conditional parameters accompany a put of an id with no existing
entry, the precondition check is skipped and the unconditional body runs,
whatever the evaluator would have said. -/
theorem putBook_absent (pfail : String → Nat → Bool) (hasCond : Bool)
    (s : BooksState) (id : String) (body : Book) (now : Nat)
    (hl : mapLookup s.books id = none) :
    putBook pfail hasCond s id body now = putBookApply s id body now := by
  unfold putBook
  cases hasCond with
  | false => simp
  | true => simp [hl]

/-- Same skip for delete on an absent id. -/
theorem deleteBook_absent (pfail : String → Nat → Bool) (hasCond : Bool)
    (s : BooksState) (id : String) (hl : mapLookup s.books id = none) :
    deleteBook pfail hasCond s id = deleteBookApply s id := by
  unfold deleteBook
  cases hasCond with
  | false => simp
  | true => simp [hl]

/-- A put into a store at capacity (20 entries) of an id that is absent:
the new entry is inserted, and the eviction loop removes exactly the head
of the order sequence. -/
theorem putBookApply_at_capacity (s : BooksState) (id : String)
    (body : Book) (now : Nat) (k0 : String) (rest : List String)
    (h : booksInv s) (hfull : s.books.length = 20)
    (hl : mapLookup s.books id = none) (horder : s.booksOrder = k0 :: rest) :
    putBookApply s id body now =
      ⟨mapErase (mapInsert s.books id { body with modified := now }) k0,
        rest ++ [id]⟩ := by
  obtain ⟨hp, hn⟩ := h
  have hid : id ∉ keysOf s.books := (mapLookup_eq_none _ _).1 hl
  have hlen1 :
      (mapInsert s.books id { body with modified := now }).length = 21 := by
    rw [length_mapInsert_of_not_mem _ hid, hfull]
  have hk0 : k0 ∈ keysOf s.books :=
    hp.mem_iff.2 (by rw [horder]; exact List.mem_cons_self _ _)
  have hk0' :
      k0 ∈ keysOf (mapInsert s.books id { body with modified := now }) := by
    rw [keysOf_mapInsert_of_not_mem _ hid]
    exact List.mem_append_left _ hk0
  have hlen2 :
      (mapErase (mapInsert s.books id { body with modified := now })
        k0).length = 20 := by
    rw [length_mapErase_of_mem hk0', hlen1]
  have hgt :
      (mapInsert s.books id { body with modified := now }).length > 20 := by
    omega
  rw [putBookApply_of_absent s id body now hl, horder, List.cons_append,
    evictLoop, if_pos hgt, evictLoop_of_le _ _ (le_of_eq hlen2)]

/-- After a put under the store invariant on a store within its bound, the
stored entry for the id is the supplied body with `modified` stamped. -/
theorem putBookApply_lookup_self (s : BooksState) (id : String)
    (body : Book) (now : Nat) (h : booksInv s)
    (hlen : s.books.length ≤ 20) :
    mapLookup (putBookApply s id body now).books id =
      some { body with modified := now } := by
  by_cases hl : mapLookup s.books id = none
  · have hid : id ∉ keysOf s.books := (mapLookup_eq_none _ _).1 hl
    by_cases hfull : s.books.length = 20
    · have holen : s.booksOrder.length = 20 := by
        have hq := h.1.length_eq
        rw [length_keysOf] at hq
        omega
      cases horder : s.booksOrder with
      | nil =>
        rw [horder] at holen
        simp at holen
      | cons k0 rest =>
        have hk0 : k0 ∈ keysOf s.books :=
          h.1.mem_iff.2 (by rw [horder]; exact List.mem_cons_self _ _)
        have hk0id : k0 ≠ id := fun he => hid (he ▸ hk0)
        rw [putBookApply_at_capacity s id body now k0 rest h hfull hl horder]
        show mapLookup (mapErase _ k0) id = _
        rw [mapLookup_mapErase_ne _ hk0id, mapLookup_mapInsert_self]
    · have hle : (mapInsert s.books id
          { body with modified := now }).length ≤ 20 := by
        rw [length_mapInsert_of_not_mem _ hid]
        omega
      rw [putBookApply_of_absent s id body now hl,
        evictLoop_of_le _ _ hle]
      exact mapLookup_mapInsert_self _ _ _
  · have hid : id ∈ keysOf s.books := by
      by_contra hk
      exact hl ((mapLookup_eq_none _ _).2 hk)
    have hle : (mapInsert s.books id
        { body with modified := now }).length ≤ 20 := by
      rw [length_mapInsert_of_mem _ hid]
      omega
    rw [putBookApply_of_present s id body now hl, evictLoop_of_le _ _ hle]
    exact mapLookup_mapInsert_self _ _ _

theorem putBookApply_length_le (s : BooksState) (id : String) (body : Book)
    (now : Nat) (h : booksInv s) :
    (putBookApply s id body now).books.length ≤ 20 := by
  obtain ⟨hp, hn⟩ := h
  by_cases hl : mapLookup s.books id = none
  · have hid : id ∉ keysOf s.books := (mapLookup_eq_none _ _).1 hl
    have hres := evictLoop_length_le (s.booksOrder ++ [id])
      (mapInsert s.books id { body with modified := now })
      (by rw [keysOf_mapInsert_of_not_mem _ hid]; exact hp.append_right [id])
    rw [putBookApply_of_absent s id body now hl]
    exact hres
  · have hid : id ∈ keysOf s.books := by
      by_contra hk
      exact hl ((mapLookup_eq_none _ _).2 hk)
    have hres := evictLoop_length_le s.booksOrder
      (mapInsert s.books id { body with modified := now })
      (by rw [keysOf_mapInsert_of_mem _ hid]; exact hp)
    rw [putBookApply_of_present s id body now hl]
    exact hres

theorem putBook_length_le (pfail : String → Nat → Bool) (hasCond : Bool)
    (s : BooksState) (id : String) (body : Book) (now : Nat)
    (h : booksInv s) (hlen : s.books.length ≤ 20) :
    (putBook pfail hasCond s id body now).books.length ≤ 20 := by
  have happ := putBookApply_length_le s id body now h
  unfold putBook
  cases hasCond with
  | false => simpa using happ
  | true =>
    simp only [if_true]
    cases hl : mapLookup s.books id with
    | none => exact happ
    | some existing =>
      by_cases hpf : pfail existing.Version existing.modified = true
      · simpa [hpf] using hlen
      · simpa [hpf] using happ

/-! ## Sequences of put requests -/

/-- One handler-level put request: the conditional-evaluation outcome
function, the conditional-presence flag, the path id, the body and the
request time. -/
structure PutOp where
  pfail : String → Nat → Bool
  hasCond : Bool
  id : String
  body : Book
  now : Nat

/-- Apply a sequence of put requests in order. -/
def applyPuts (s : BooksState) (ops : List PutOp) : BooksState :=
  ops.foldl (fun st op => putBook op.pfail op.hasCond st op.id op.body op.now) s

theorem applyPuts_inv_le (ops : List PutOp) (s : BooksState)
    (h : booksInv s) (hlen : s.books.length ≤ 20) :
    booksInv (applyPuts s ops) ∧ (applyPuts s ops).books.length ≤ 20 := by
  induction ops generalizing s with
  | nil => exact ⟨h, hlen⟩
  | cons op rest ih =>
    have hstep := putBook_inv op.pfail op.hasCond s op.id op.body op.now h
    have hsteplen :=
      putBook_length_le op.pfail op.hasCond s op.id op.body op.now h hlen
    simpa [applyPuts] using
      ih (putBook op.pfail op.hasCond s op.id op.body op.now) hstep hsteplen

/-! ## Lemmas about the fingerprint pipeline -/

/-- The fingerprint never reads the unexported `modified` field: the JSON
serialization skips it (tag `"-"`), so the whole pipeline is unchanged. -/
theorem Version_ignores_modified (b : Book) (m : Nat) :
    Book.Version { b with modified := m } = Book.Version b := rfl

set_option maxHeartbeats 2000000 in
/-- Unfolding equation for `Book.Version` as a character list. -/
theorem Version_data (b : Book) : (Book.Version b).data =
    base64Core stdAlphabet true
      (toBytesBE 16 (fnv128 (utf8Bytes (marshalBook b)))) := by
  unfold Book.Version
  rfl

theorem length_toBytesBE : ∀ (n v : Nat), (toBytesBE n v).length = n
  | 0, _ => rfl
  | n + 1, v => by simp [toBytesBE, length_toBytesBE n (v / 256)]

theorem mem_toBytesBE_lt : ∀ (n v : Nat), ∀ b ∈ toBytesBE n v, b < 256
  | 0, v => by simp [toBytesBE]
  | n + 1, v => by
    intro b hb
    rw [toBytesBE] at hb
    rcases List.mem_append.1 hb with h1 | h2
    · exact mem_toBytesBE_lt n (v / 256) b h1
    · simp at h2
      omega

theorem b64Char_mem (alpha : List Char) (hlen : alpha.length = 64) (i : Nat)
    (h : i < 64) : b64Char alpha i ∈ alpha := by
  unfold b64Char
  rw [List.getD_eq_getElem alpha '?' (by omega)]
  exact List.getElem_mem _

/-- Every character the unpadded URL-safe encoder emits on genuine bytes
comes from the URL-safe alphabet. -/
theorem base64Core_url_mem : ∀ (bytes : List Nat), (∀ b ∈ bytes, b < 256) →
    ∀ ch ∈ base64Core urlAlphabet false bytes, ch ∈ urlAlphabet
  | b1 :: b2 :: b3 :: rest, hb, ch, hch => by
    have h1 : b1 < 256 := hb b1 (by simp)
    have h2 : b2 < 256 := hb b2 (by simp)
    have h3 : b3 < 256 := hb b3 (by simp)
    have hurl : urlAlphabet.length = 64 := rfl
    rw [base64Core] at hch
    rcases List.mem_cons.1 hch with rfl | hch
    · exact b64Char_mem _ hurl _ (by omega)
    rcases List.mem_cons.1 hch with rfl | hch
    · exact b64Char_mem _ hurl _ (by omega)
    rcases List.mem_cons.1 hch with rfl | hch
    · exact b64Char_mem _ hurl _ (by omega)
    rcases List.mem_cons.1 hch with rfl | hch
    · exact b64Char_mem _ hurl _ (by omega)
    exact base64Core_url_mem rest (fun b hb' => hb b (by simp [hb'])) ch hch
  | [b1, b2], hb, ch, hch => by
    have h1 : b1 < 256 := hb b1 (by simp)
    have h2 : b2 < 256 := hb b2 (by simp)
    have hurl : urlAlphabet.length = 64 := rfl
    rw [base64Core] at hch
    simp only [if_neg, Bool.false_eq_true, not_false_iff, List.append_nil,
      if_false] at hch
    rcases List.mem_cons.1 hch with rfl | hch
    · exact b64Char_mem _ hurl _ (by omega)
    rcases List.mem_cons.1 hch with rfl | hch
    · exact b64Char_mem _ hurl _ (by omega)
    rcases List.mem_cons.1 hch with rfl | hch
    · exact b64Char_mem _ hurl _ (by omega)
    simp at hch
  | [b1], hb, ch, hch => by
    have h1 : b1 < 256 := hb b1 (by simp)
    have hurl : urlAlphabet.length = 64 := rfl
    rw [base64Core] at hch
    simp only [if_neg, Bool.false_eq_true, not_false_iff, List.append_nil,
      if_false] at hch
    rcases List.mem_cons.1 hch with rfl | hch
    · exact b64Char_mem _ hurl _ (by omega)
    rcases List.mem_cons.1 hch with rfl | hch
    · exact b64Char_mem _ hurl _ (by omega)
    simp at hch
  | [], _, ch, hch => by
    rw [base64Core] at hch
    simp at hch

/-- The padded standard encoder always emits `=` when the byte count is
1 modulo 3 (as for the 16-byte fnv-128 sum). -/
theorem base64Core_pad_mem : ∀ (bytes : List Nat), bytes.length % 3 = 1 →
    '=' ∈ base64Core stdAlphabet true bytes
  | b1 :: b2 :: b3 :: rest, h => by
    have hrest : rest.length % 3 = 1 := by
      simp [List.length_cons] at h
      omega
    rw [base64Core]
    simp only [List.mem_cons]
    exact Or.inr (Or.inr (Or.inr (Or.inr (base64Core_pad_mem rest hrest))))
  | [b1, b2], h => by simp at h
  | [b1], _ => by simp [base64Core]
  | [], h => by simp at h

/-! ## Concrete objects for witnesses and counterexamples -/

/-- A concrete book with all optional fields empty. -/
def bookA : Book := ⟨"Alpha", "", 0, 0, 0, [], 0⟩

/-- A second concrete book. -/
def bookB : Book := ⟨"Beta", "", 0, 0, 0, [], 0⟩

/-- A one-entry store satisfying the invariant. -/
def stateA : BooksState := ⟨[("a", bookA)], ["a"]⟩

/-- Twenty distinct keys, the insertion order of `fullState`. -/
def fullOrder : List String :=
  ["b00", "b01", "b02", "b03", "b04", "b05", "b06", "b07", "b08", "b09",
    "b10", "b11", "b12", "b13", "b14", "b15", "b16", "b17", "b18", "b19"]

/-- A store at capacity: exactly 20 entries. -/
def fullState : BooksState := ⟨fullOrder.map (fun k => (k, bookA)), fullOrder⟩

/-! ## The claims -/

/-- C1: for every reachable store state, the order sequence (`booksOrder`)
contains exactly the keys present in the entries map (`books`) — no
duplicates, same cardinality (stated as a permutation between the key
list and the order, with the order duplicate-free) — and every mutating
operation (put, delete, baseline reload, live-update simulator) preserves
this correspondence. -/
theorem c1_order_matches_entries (pfail : String → Nat → Bool)
    (hasCond : Bool) (s : BooksState) (id : String) (body : Book)
    (now now2 now3 : Nat) (loaded : BMap)
    (h : booksInv s) (hload : (keysOf loaded).Nodup) :
    booksInv (putBook pfail hasCond s id body now) ∧
    booksInv (deleteBook pfail hasCond s id) ∧
    booksInv (reloadBooks loaded now2) ∧
    booksInv (updateSapiens s now3) :=
  ⟨putBook_inv pfail hasCond s id body now h,
    deleteBook_inv pfail hasCond s id h,
    reloadBooks_inv loaded now2 hload,
    updateSapiens_inv s now3 h⟩

/-- Witness for C1 at a concrete store. -/
theorem c1_order_matches_entries_witness :
    booksInv (putBook (fun _ _ => false) false stateA "b" bookB 1) ∧
    booksInv (deleteBook (fun _ _ => false) false stateA "b") ∧
    booksInv (reloadBooks [("a", bookA)] 2) ∧
    booksInv (updateSapiens stateA 3) :=
  c1_order_matches_entries (fun _ _ => false) false stateA "b" bookB 1 2 3
    [("a", bookA)] ⟨List.Perm.refl _, by decide⟩ (by decide)

/-- C2: starting from an invariant-satisfying state with at most 20
entries, the entry count stays at most 20 after every sequence of put
requests (the eviction loop restores the bound before each put returns;
instantiating the sequence at every prefix bounds each intermediate
state). -/
theorem c2_put_bound (s : BooksState) (ops : List PutOp)
    (h : booksInv s) (hlen : s.books.length ≤ 20) :
    (applyPuts s ops).books.length ≤ 20 :=
  (applyPuts_inv_le ops s h hlen).2

/-- Witness for C2 at a concrete store and request list. -/
theorem c2_put_bound_witness :
    (applyPuts stateA [⟨fun _ _ => false, false, "b", bookB, 1⟩,
      ⟨fun _ _ => true, true, "c", bookB, 2⟩]).books.length ≤ 20 :=
  c2_put_bound stateA _ ⟨List.Perm.refl _, by decide⟩ (by decide)

/-- C3: the precondition evaluator (modelled from the spec, section 4.3)
satisfies the round-trip properties: if-none-match listing the current
fingerprint yields NotModified; if-match listing only a different,
non-wildcard fingerprint yields PreconditionFailed; no conditionals yield
Proceed; and a present if-match takes precedence over all other
conditions — whatever the other conditions are, the outcome is Proceed
when it lists the current fingerprint or the wildcard, and
PreconditionFailed otherwise.  The evaluator is a pure function of its
three arguments by construction. -/
theorem c3_evaluate_round_trip (fp fp2 : String) (t : Nat)
    (c : Conditionals) (hne : fp2 ≠ fp) (hnw : fp2 ≠ "*")
    (hm : c.ifMatch ≠ []) :
    evaluate ⟨[], [fp], none, none⟩ fp t = Outcome.notModified ∧
    evaluate ⟨[fp2], [], none, none⟩ fp t = Outcome.preconditionFailed ∧
    evaluate ⟨[], [], none, none⟩ fp t = Outcome.proceed ∧
    evaluate c fp t =
      (if fp ∈ c.ifMatch ∨ "*" ∈ c.ifMatch then Outcome.proceed
        else Outcome.preconditionFailed) := by
  refine ⟨?_, ?_, ?_, ?_⟩
  · simp [evaluate]
  · simp [evaluate, Ne.symm hne, Ne.symm hnw]
  · simp [evaluate]
  · by_cases hmm : fp ∈ c.ifMatch ∨ "*" ∈ c.ifMatch <;>
      simp [evaluate, hm, hmm]

/-- Witness for C3 at concrete fingerprints; the precedence case carries
an if-none-match listing the current fingerprint and both time
conditions, none of which may override the failed if-match. -/
theorem c3_evaluate_round_trip_witness :
    evaluate ⟨[], ["fpA"], none, none⟩ "fpA" 7 = Outcome.notModified ∧
    evaluate ⟨["fpB"], [], none, none⟩ "fpA" 7 =
      Outcome.preconditionFailed ∧
    evaluate ⟨[], [], none, none⟩ "fpA" 7 = Outcome.proceed ∧
    evaluate ⟨["fpC"], ["fpA"], some 3, some 3⟩ "fpA" 7 =
      (if "fpA" ∈ ["fpC"] ∨ "*" ∈ ["fpC"] then Outcome.proceed
        else Outcome.preconditionFailed) :=
  c3_evaluate_round_trip "fpA" "fpB" 7 ⟨["fpC"], ["fpA"], some 3, some 3⟩
    (by decide) (by decide) (by decide)

/-- C4: a put of an absent key into an invariant-satisfying store at
capacity (exactly 20 entries) evicts exactly the head of the order
sequence (the oldest still-present key by original insertion order): the
result has exactly 20 entries, the new key is present and listed last,
the evicted head is gone, and every other key is bound exactly as
before. -/
theorem c4_eviction_oldest (pfail : String → Nat → Bool) (hasCond : Bool)
    (s : BooksState) (id k0 : String) (rest : List String) (body : Book)
    (now : Nat) (h : booksInv s) (hfull : s.books.length = 20)
    (habs : mapLookup s.books id = none)
    (horder : s.booksOrder = k0 :: rest) :
    (putBook pfail hasCond s id body now).booksOrder = rest ++ [id] ∧
    mapLookup (putBook pfail hasCond s id body now).books k0 = none ∧
    mapLookup (putBook pfail hasCond s id body now).books id =
      some { body with modified := now } ∧
    (putBook pfail hasCond s id body now).books.length = 20 ∧
    (∀ k, k ≠ k0 → k ≠ id →
      mapLookup (putBook pfail hasCond s id body now).books k =
        mapLookup s.books k) := by
  have hput := putBook_absent pfail hasCond s id body now habs
  have hcap := putBookApply_at_capacity s id body now k0 rest h hfull habs
    horder
  have hid : id ∉ keysOf s.books := (mapLookup_eq_none _ _).1 habs
  have hk0 : k0 ∈ keysOf s.books :=
    h.1.mem_iff.2 (by rw [horder]; exact List.mem_cons_self _ _)
  have hk0id : k0 ≠ id := fun he => hid (he ▸ hk0)
  have hk0ins :
      k0 ∈ keysOf (mapInsert s.books id { body with modified := now }) := by
    rw [keysOf_mapInsert_of_not_mem _ hid]
    exact List.mem_append_left _ hk0
  have hnd :
      (keysOf (mapInsert s.books id { body with modified := now })).Nodup := by
    rw [keysOf_mapInsert_of_not_mem _ hid]
    have hnk : (keysOf s.books).Nodup := h.1.symm.nodup h.2
    simp [List.nodup_append, hnk, hid]
  rw [hput, hcap]
  refine ⟨rfl, ?_, ?_, ?_, ?_⟩
  · show mapLookup (mapErase _ k0) k0 = none
    rw [mapLookup_eq_none, keysOf_mapErase]
    exact hnd.not_mem_erase
  · show mapLookup (mapErase _ k0) id = _
    rw [mapLookup_mapErase_ne _ hk0id, mapLookup_mapInsert_self]
  · show (mapErase _ k0).length = 20
    rw [length_mapErase_of_mem hk0ins, length_mapInsert_of_not_mem _ hid,
      hfull]
  · intro k hk1 hk2
    show mapLookup (mapErase _ k0) k = _
    rw [mapLookup_mapErase_ne _ (Ne.symm hk1),
      mapLookup_mapInsert_ne _ _ (Ne.symm hk2)]

/-- Witness for C4 at a concrete store at capacity. -/
theorem c4_eviction_oldest_witness :
    (putBook (fun _ _ => false) false fullState "new" bookB 9).booksOrder =
      fullOrder.tail ++ ["new"] ∧
    mapLookup (putBook (fun _ _ => false) false fullState "new" bookB
      9).books "b00" = none ∧
    mapLookup (putBook (fun _ _ => false) false fullState "new" bookB
      9).books "new" = some { bookB with modified := 9 } ∧
    (putBook (fun _ _ => false) false fullState "new" bookB
      9).books.length = 20 ∧
    (∀ k, k ≠ "b00" → k ≠ "new" →
      mapLookup (putBook (fun _ _ => false) false fullState "new" bookB
        9).books k = mapLookup fullState.books k) :=
  c4_eviction_oldest (fun _ _ => false) false fullState "new" "b00"
    fullOrder.tail bookB 9 ⟨List.Perm.refl _, by decide⟩ (by decide)
    (by decide) (by decide)

/-- C5: put and delete requests carrying conditional headers on an
absent key skip the precondition check entirely and run the
unconditional bodies, whatever the evaluator would answer; creation
always succeeds (the new entry is stored) and deletion of the absent key
succeeds (the key stays absent). -/
theorem c5_absent_skips_precondition (pfail : String → Nat → Bool)
    (hasCond : Bool) (s : BooksState) (id : String) (body : Book)
    (now : Nat) (h : booksInv s) (hlen : s.books.length ≤ 20)
    (habs : mapLookup s.books id = none) :
    putBook pfail hasCond s id body now = putBookApply s id body now ∧
    deleteBook pfail hasCond s id = deleteBookApply s id ∧
    mapLookup (putBook pfail hasCond s id body now).books id =
      some { body with modified := now } ∧
    mapLookup (deleteBook pfail hasCond s id).books id = none := by
  refine ⟨putBook_absent pfail hasCond s id body now habs,
    deleteBook_absent pfail hasCond s id habs, ?_, ?_⟩
  · rw [putBook_absent pfail hasCond s id body now habs]
    exact putBookApply_lookup_self s id body now h hlen
  · rw [deleteBook_absent pfail hasCond s id habs]
    show mapLookup (mapErase s.books id) id = none
    rw [mapLookup_eq_none] at habs ⊢
    rw [keysOf_mapErase]
    exact fun hm => habs (List.mem_of_mem_erase hm)

/-- Witness for C5 with an always-failing evaluator outcome, which is
nevertheless never consulted. -/
theorem c5_absent_skips_precondition_witness :
    putBook (fun _ _ => true) true stateA "b" bookB 4 =
      putBookApply stateA "b" bookB 4 ∧
    deleteBook (fun _ _ => true) true stateA "b" = deleteBookApply stateA "b" ∧
    mapLookup (putBook (fun _ _ => true) true stateA "b" bookB 4).books "b" =
      some { bookB with modified := 4 } ∧
    mapLookup (deleteBook (fun _ _ => true) true stateA "b").books "b" =
      none :=
  c5_absent_skips_precondition (fun _ _ => true) true stateA "b" bookB 4
    ⟨List.Perm.refl _, by decide⟩ (by decide) (by decide)

/-- C6: a get of key k after a put of (k, v) — a put without conditional
headers, with no intervening operation — succeeds (is not NotFound) and
returns the stored payload, whose fingerprint equals the fingerprint of
v: the put overwrites only the internal modified timestamp, which the
fingerprint ignores. -/
theorem c6_get_after_put (pfail : String → Nat → Bool) (s : BooksState)
    (id : String) (v : Book) (now : Nat) (h : booksInv s)
    (hlen : s.books.length ≤ 20) :
    getBook (fun _ _ => false) (putBook pfail false s id v now) id =
      GetBookResult.ok { v with modified := now } ∧
    Book.Version { v with modified := now } = Book.Version v := by
  have hnc : putBook pfail false s id v now = putBookApply s id v now := by
    simp [putBook]
  constructor
  · have hlook : mapLookup (putBook pfail false s id v now).books id =
        some { v with modified := now } := by
      rw [hnc]
      exact putBookApply_lookup_self s id v now h hlen
    unfold getBook
    rw [hlook]
    rfl
  · exact Version_ignores_modified v now

/-- Witness for C6 at a concrete store. -/
theorem c6_get_after_put_witness :
    getBook (fun _ _ => false) (putBook (fun _ _ => false) false stateA
      "b" bookB 6) "b" = GetBookResult.ok { bookB with modified := 6 } ∧
    Book.Version { bookB with modified := 6 } = Book.Version bookB :=
  c6_get_after_put (fun _ _ => false) stateA "b" bookB 6
    ⟨List.Perm.refl _, by decide⟩ (by decide)

/-- C7: two Book values with identical public fields produce identical
fingerprints regardless of the internal `modified` timestamps: the
fingerprint is a function of the serialized public payload only. -/
theorem c7_version_of_public_fields (b1 b2 : Book)
    (ht : b1.title = b2.title) (ha : b1.author = b2.author)
    (hp : b1.published = b2.published) (hr : b1.ratings = b2.ratings)
    (hra : b1.ratingAverage = b2.ratingAverage)
    (hrr : b1.recentRatings = b2.recentRatings) :
    Book.Version b1 = Book.Version b2 := by
  cases b1
  cases b2
  simp only at ht ha hp hr hra hrr
  subst ht
  subst ha
  subst hp
  subst hr
  subst hra
  subst hrr
  rfl

/-- Witness for C7: same public fields, different timestamps. -/
theorem c7_version_of_public_fields_witness :
    Book.Version ⟨"T", "A", 3, 4, 5, [⟨1, 2⟩], 10⟩ =
      Book.Version ⟨"T", "A", 3, 4, 5, [⟨1, 2⟩], 99⟩ :=
  c7_version_of_public_fields ⟨"T", "A", 3, 4, 5, [⟨1, 2⟩], 10⟩
    ⟨"T", "A", 3, 4, 5, [⟨1, 2⟩], 99⟩ rfl rfl rfl rfl rfl rfl

/-- A concrete book whose Version exhibits base64 padding. -/
def plainBook : Book := ⟨"x", "", 0, 0, 0, [], 0⟩

/-- Counterexample to C8: the books fingerprint (`Book.Version`) is NOT
encoded with a URL-safe, padding-free base64-like encoding — at the
concrete input `plainBook` its output contains the padding character
`=`, which the URL-safe alphabet does not contain (`Book.Version` uses
`base64.StdEncoding`, which pads). -/
theorem c8_counterexample_padding :
    '=' ∈ (Book.Version plainBook).data ∧ '=' ∉ urlAlphabet := by
  constructor
  · exact base64Core_pad_mem
      (toBytesBE 16 (fnv128 (utf8Bytes (marshalBook plainBook))))
      (by rw [length_toBytesBE])
  · decide

/-- C8 (amended): both fingerprint generators serialize and hash with a
fast non-cryptographic hash at least 64 bits wide (fnv-128 lays out 16
bytes, xxh3 8 bytes); the echo ETag generator `genETagBytes` encodes the
hash with the URL-safe, padding-free base64 alphabet (11 characters, all
from the URL-safe alphabet, never `=`), while the books `Book.Version`
encodes with standard padded base64 — its output always contains `=`. -/
theorem c8_encoding_split (hash : Nat) (b : Book) :
    (∀ ch ∈ (genETagBytes hash).data, ch ∈ urlAlphabet) ∧
    '=' ∉ urlAlphabet ∧
    (genETagBytes hash).length = 11 ∧
    (toBytesBE 16 (fnv128 (utf8Bytes (marshalBook b)))).length = 16 ∧
    '=' ∈ (Book.Version b).data := by
  refine ⟨?_, by decide, rfl, length_toBytesBE 16 _, ?_⟩
  · exact base64Core_url_mem _ (mem_toBytesBE_lt 8 _)
  · rw [Version_data]
    exact base64Core_pad_mem _ (by rw [length_toBytesBE])

/-- Witness for C8 (amended) at a concrete hash and book. -/
theorem c8_encoding_split_witness :
    (∀ ch ∈ (genETagBytes 12345).data, ch ∈ urlAlphabet) ∧
    '=' ∉ urlAlphabet ∧
    (genETagBytes 12345).length = 11 ∧
    (toBytesBE 16 (fnv128 (utf8Bytes (marshalBook bookA)))).length = 16 ∧
    '=' ∈ (Book.Version bookA).data :=
  c8_encoding_split 12345 bookA

/-- The sapiens entry with one pre-existing recent rating. -/
def ratedSapiens : Book := ⟨"Sapiens", "Yuval Noah Harari", 0, 0, 0, [⟨1, rating46⟩], 0⟩

/-- A store holding the rated sapiens entry. -/
def sapiensState : BooksState := ⟨[("sapiens", ratedSapiens)], ["sapiens"]⟩

/-- Counterexample to C9: the live-update tick does not APPEND a
sub-record to the sapiens entry's ratings payload; at the concrete store
`sapiensState`, whose entry already holds one rating, the tick leaves the
entry with only the single fresh rating, not the old one followed by the
fresh one. -/
theorem c9_counterexample_append :
    mapLookup (updateSapiens sapiensState 5).books "sapiens" =
      some { ratedSapiens with modified := 5, recentRatings := [⟨5, rating46⟩] } ∧
    ([⟨5, rating46⟩] : List Rating) ≠
      ratedSapiens.recentRatings ++ [⟨5, rating46⟩] := by
  constructor
  · decide
  · decide

/-- C9 (amended): on each tick of the live-update simulator, if the key
"sapiens" exists, the simulator REPLACES the entry's recent-ratings
payload with a single freshly timestamped 4.6 rating (discarding any
previous ones) and refreshes the entry's modified timestamp; if the key
is absent, the store is left unchanged. -/
theorem c9_tick_replaces (s : BooksState) (now : Nat) (b : Book) :
    (mapLookup s.books "sapiens" = some b →
      mapLookup (updateSapiens s now).books "sapiens" =
        some { b with modified := now, recentRatings := [⟨now, rating46⟩] }) ∧
    (mapLookup s.books "sapiens" = none → updateSapiens s now = s) := by
  constructor
  · intro hl
    unfold updateSapiens
    rw [hl]
    exact mapLookup_mapInsert_self _ _ _
  · intro hl
    unfold updateSapiens
    rw [hl]

/-- Witness for C9 (amended) at the concrete rated store. -/
theorem c9_tick_replaces_witness :
    (mapLookup sapiensState.books "sapiens" = some ratedSapiens →
      mapLookup (updateSapiens sapiensState 5).books "sapiens" =
        some { ratedSapiens with modified := 5, recentRatings := [⟨5, rating46⟩] }) ∧
    (mapLookup sapiensState.books "sapiens" = none →
      updateSapiens sapiensState 5 = sapiensState) :=
  c9_tick_replaces sapiensState 5 ratedSapiens

/-- C10: a put that overwrites an existing key in a store within its
bound leaves the order sequence completely unchanged (the key keeps its
original position, nothing is appended) and leaves the entry count
unchanged (no eviction happens). -/
theorem c10_overwrite_preserves_order (pfail : String → Nat → Bool)
    (hasCond : Bool) (s : BooksState) (id : String) (body existing : Book)
    (now : Nat) (hex : mapLookup s.books id = some existing)
    (hlen : s.books.length ≤ 20) :
    (putBook pfail hasCond s id body now).booksOrder = s.booksOrder ∧
    (putBook pfail hasCond s id body now).books.length =
      s.books.length := by
  have hne : mapLookup s.books id ≠ none := by simp [hex]
  have hid : id ∈ keysOf s.books := mem_keysOf_of_lookup hex
  have happ1 : putBookApply s id body now =
      ⟨mapInsert s.books id { body with modified := now }, s.booksOrder⟩ := by
    rw [putBookApply_of_present s id body now hne,
      evictLoop_of_le _ _ (by rw [length_mapInsert_of_mem _ hid]; omega)]
  have happly : (putBookApply s id body now).booksOrder = s.booksOrder ∧
      (putBookApply s id body now).books.length = s.books.length := by
    rw [happ1]
    exact ⟨rfl, length_mapInsert_of_mem _ hid⟩
  unfold putBook
  cases hasCond with
  | false => simpa using happly
  | true =>
    simp only [if_true]
    rw [hex]
    by_cases hpf : pfail existing.Version existing.modified = true
    · simp [hpf]
    · simpa [hpf] using happly

/-- Witness for C10: overwriting the only key of a concrete store. -/
theorem c10_overwrite_preserves_order_witness :
    (putBook (fun _ _ => false) true stateA "a" bookB 8).booksOrder =
      stateA.booksOrder ∧
    (putBook (fun _ _ => false) true stateA "a" bookB 8).books.length =
      stateA.books.length :=
  c10_overwrite_preserves_order (fun _ _ => false) true stateA "a" bookB
    bookA 8 (by decide) (by decide)

end Apibin
